import Mathlib

/-!
Shallow embedding of the Cursor-Vector-Engine backend
(`src/backend/features.py` and `src/backend/app/main.py`).

Signals are sequences of rational sample values (the Python code works on
float64; the claims under study concern shapes, ordering, control flow and
exact zero/mean structure, none of which depend on rounding).  The external
SciPy estimator `scipy.signal.welch` is not part of this repository; it is
modelled as a parameter `welch : Welch` mapping a signal, the sampling rate
`fs` and the segment length `nperseg` to the pair `(f, psd)` of frequency-bin
centers and power values, exactly as the call site in `features.py` uses it.
-/

/-- Type of the external Welch PSD estimator: `(sig, fs, nperseg) ↦ (f, psd)`. -/
abbrev Welch : Type := List ℚ → ℕ → ℕ → List ℚ × List ℚ

/-- `np.where((f >= lo) & (f <= hi))[0]`: the indices of the entries of `f`
lying in the inclusive interval `[lo, hi]`, in increasing order
(`features.py` line 58). -/
def whereInBand (f : List ℚ) (lo hi : ℚ) : List ℕ :=
  (List.range f.length).filter (fun i => lo ≤ f.getD i 0 ∧ f.getD i 0 ≤ hi)

/-- The body of the innermost loop of `extract_ssvep_features`
(`features.py` lines 56-63): mean of `psd` over the indices whose frequency
lies within `band_width` of `freq`, and `0.0` when no bin qualifies. -/
def bandPower (f psd : List ℚ) (freq band_width : ℚ) : ℚ :=
  let idx := whereInBand f (freq - band_width) (freq + band_width)
  if idx.length > 0 then
    (idx.map (fun i => psd.getD i 0)).sum / idx.length
  else 0

/-- The per-channel, per-frequency, per-harmonic feature block appended to
`trial_feats` for one channel (`features.py` lines 54-65): middle loop over
`target_freqs` in configured order, inner loop over `harmonic_multipliers`
in configured order. -/
def channelFeats (f psd : List ℚ) (target_freqs : List ℚ)
    (harmonic_multipliers : List ℕ) (band_width : ℚ) : List ℚ :=
  target_freqs.flatMap (fun base_f =>
    harmonic_multipliers.map (fun (h : ℕ) =>
      bandPower f psd (base_f * (h : ℚ)) band_width))

/-- One iteration of the trial loop of `extract_ssvep_features`
(`features.py` lines 44-67): outer loop over the trial's channels in physical
order; each channel's signal goes through Welch with
`nperseg = min 512 n_samples`. -/
def trialFeats (welch : Welch) (fs : ℕ) (target_freqs : List ℚ)
    (harmonic_multipliers : List ℕ) (band_width : ℚ) (n_samples : ℕ)
    (trial : List (List ℚ)) : List ℚ :=
  trial.flatMap (fun sig =>
    let fp := welch sig fs (min 512 n_samples)
    channelFeats fp.1 fp.2 target_freqs harmonic_multipliers band_width)

/-- `extract_ssvep_features` (`features.py` lines 5-69).  `X` is the batch of
trials (trials × channels × samples); `n_samples` is read off the batch shape
as in `n_trials, n_channels, n_samples = X.shape` (NumPy arrays are
rectangular, expressed here by the `Rect3` hypothesis of the theorems).
Row `trial_idx` of the result is the flattened `trial_feats` list of that
trial. -/
def extract_ssvep_features (welch : Welch) (fs : ℕ) (target_freqs : List ℚ)
    (harmonic_multipliers : List ℕ) (band_width : ℚ)
    (X : List (List (List ℚ))) : List (List ℚ) :=
  let n_samples := ((X.headD []).headD []).length
  X.map (trialFeats welch fs target_freqs harmonic_multipliers band_width n_samples)

/-- The rectangularity of a NumPy array of shape
`(X.length, n_channels, n_samples)`. -/
def Rect3 (X : List (List (List ℚ))) (n_channels n_samples : ℕ) : Prop :=
  ∀ t ∈ X, t.length = n_channels ∧ ∀ c ∈ t, c.length = n_samples

instance (X : List (List (List ℚ))) (nc ns : ℕ) : Decidable (Rect3 X nc ns) := by
  unfold Rect3; infer_instance

/-!
### ConnectionManager (`src/backend/app/main.py` lines 34-56)

Connections are identified by natural numbers; `active_connections` is a
Python `list`, modelled as a `List ℕ` (ordered, duplicates representable).
A broadcast's per-connection send may fail; the outcome of an attempted send
is modelled by a predicate `ok : ℕ → Bool` (the `try/except Exception` in the
source absorbs every send failure, so the operation is total).
-/

/-- `ConnectionManager.connect` (`main.py` lines 38-40): the accepted socket
is appended to `active_connections`, unconditionally. -/
def connect (s : List ℕ) (ws : ℕ) : List ℕ := s ++ [ws]

/-- Python `list.remove`: delete the first occurrence. -/
def removeFirst : List ℕ → ℕ → List ℕ
  | [], _ => []
  | x :: xs, ws => if x = ws then xs else x :: removeFirst xs ws

/-- `ConnectionManager.disconnect` (`main.py` lines 42-44): remove the first
occurrence if present, otherwise do nothing. -/
def disconnect (s : List ℕ) (ws : ℕ) : List ℕ :=
  if ws ∈ s then removeFirst s ws else s

/-- `ConnectionManager.broadcast_json` (`main.py` lines 46-56).  Returns the
ordered list of connections to which delivery was attempted together with the
state of `active_connections` after the cleanup loop: the failed sends are
collected into `disconnected` while iterating, and only afterwards each one
is removed via `disconnect`. -/
def broadcast_json (s : List ℕ) (ok : ℕ → Bool) : List ℕ × List ℕ :=
  let disconnected := s.filter (fun ws => !(ok ws))
  (s, disconnected.foldl disconnect s)

/-!
### `/predict` endpoint (`src/backend/app/main.py` lines 100-140)

The request body is Pydantic-validated to `data : list[list[float]]` plus a
model name, modelled by `List (List ℚ)` and `String`.  `np.array(data,
dtype=float)` yields a 1-dimensional empty array for `data = []`, a
2-dimensional array for rectangular `data`, and raises `ValueError` for
ragged `data`; an exception escaping the handler surfaces as a server error.
The pre-fitted scikit-learn pipelines are opaque external artifacts,
modelled by a `Classifier` carrying its native class ordering `classes_`
(labels as integers, stringified with `toString` as the source applies
`str`) and its `predict_proba` row function.
-/

/-- A fitted model of the registry: `classes_` in native order and
`predict_proba` restricted to a single feature row. -/
structure Classifier where
  classes : List ℤ
  proba : List ℚ → List ℚ

/-- Result of `np.array(data, dtype=float)` on a `list[list[float]]`:
`(ndim, arr)` on success, `ValueError` (modelled as `.error ()`) on ragged
input. -/
def npArray2 (data : List (List ℚ)) : Except Unit (ℕ × List (List ℚ)) :=
  match data with
  | [] => .ok (1, [])
  | row :: rows =>
    if rows.all (fun r => r.length = row.length) then .ok (2, data)
    else .error ()

/-- `np.argmax`: index of the first occurrence of the maximum. -/
def npArgmax : List ℚ → ℕ
  | [] => 0
  | [_] => 0
  | x :: y :: rest =>
    if x < (y :: rest).getD (npArgmax (y :: rest)) 0 then
      npArgmax (y :: rest) + 1
    else 0

/-- The JSON body assembled by `predict` (`main.py` lines 128-132). -/
structure Prediction where
  model_name : String
  predicted_label : String
  class_probabilities : List (String × ℚ)
deriving DecidableEq

/-- Observable outcome of one `/predict` call. -/
inductive RespStatus where
  | clientError (detail : String)
  | serverError
  | ok (resp : Prediction)
deriving DecidableEq

/-- The `/predict` handler (`main.py` lines 100-140).  The first component is
the HTTP-level outcome, the second the list of messages handed to
`manager.broadcast_json` during the call (the broadcast payload is the
response dict plus a constant `type` tag, so it is identified with the
`Prediction`). -/
def predict (models : String → Option Classifier) (welch : Welch)
    (data : List (List ℚ)) (model_name : String) : RespStatus × List Prediction :=
  match npArray2 data with
  | .error () => (.serverError, [])
  | .ok (ndim, arr) =>
    if ndim ≠ 2 then
      (.clientError "data must be a 2D array: channels x samples", [])
    else
      let X := [arr]
      let X_feat := extract_ssvep_features welch 256 [10, 12, 15, 20] [1, 2, 3] (1/2) X
      match models model_name with
      | none => (.clientError "Unknown model_name", [])
      | some model =>
        let probs := model.proba (X_feat.headD [])
        let classes := model.classes
        let class_probs := (classes.zip probs).map (fun p => (toString p.1, p.2))
        let pred_idx := npArgmax probs
        let pred_label := toString (classes.getD pred_idx 0)
        let response : Prediction :=
          ⟨model_name, pred_label, class_probs⟩
        (.ok response, [response])

/-!
### Evaluation relation for the extraction loops (used for determinism)

Each constructor is one iteration of the channel loop of
`extract_ssvep_features`; the Welch call appears as a premise so that two
independent evaluations of the same trial are related only by the program
text, and their agreement is a theorem rather than a definition.
-/

/-- Big-step evaluation of the channel loop on one trial. -/
inductive TrialEval (welch : Welch) (fs : ℕ) (tfs : List ℚ) (hms : List ℕ)
    (bw : ℚ) (ns : ℕ) : List (List ℚ) → List ℚ → Prop
  | nil : TrialEval welch fs tfs hms bw ns [] []
  | cons (sig : List ℚ) (rest : List (List ℚ)) (f psd : List ℚ) (out : List ℚ) :
      welch sig fs (min 512 ns) = (f, psd) →
      TrialEval welch fs tfs hms bw ns rest out →
      TrialEval welch fs tfs hms bw ns (sig :: rest)
        (channelFeats f psd tfs hms bw ++ out)

/-- Big-step evaluation of the trial loop on a batch. -/
inductive BatchEval (welch : Welch) (fs : ℕ) (tfs : List ℚ) (hms : List ℕ)
    (bw : ℚ) (ns : ℕ) : List (List (List ℚ)) → List (List ℚ) → Prop
  | nil : BatchEval welch fs tfs hms bw ns [] []
  | cons (trial : List (List ℚ)) (rest : List (List (List ℚ)))
      (row : List ℚ) (rows : List (List ℚ)) :
      TrialEval welch fs tfs hms bw ns trial row →
      BatchEval welch fs tfs hms bw ns rest rows →
      BatchEval welch fs tfs hms bw ns (trial :: rest) (row :: rows)

/-!
### Helper lemmas on flattened uniform-block lists
-/

theorem flatMap_length_uniform {α β : Type _} (l : List α) (g : α → List β) (k : ℕ)
    (hk : ∀ x ∈ l, (g x).length = k) : (l.flatMap g).length = l.length * k := by
  induction l with
  | nil => simp
  | cons x t ih =>
    have hx : (g x).length = k := hk x (by simp)
    have ht : ∀ y ∈ t, (g y).length = k := fun y hy => hk y (by simp [hy])
    simp [List.flatMap_cons, hx, ih ht, Nat.succ_mul, Nat.add_comm]

theorem flatMap_getD_uniform {α β : Type _} (l : List α) (g : α → List β) (k : ℕ)
    (hk : ∀ x ∈ l, (g x).length = k) (i j : ℕ) (hi : i < l.length) (hj : j < k)
    (d : β) (dα : α) :
    (l.flatMap g).getD (i * k + j) d = (g (l.getD i dα)).getD j d := by
  induction l generalizing i with
  | nil => exact absurd hi (by simp)
  | cons x t ih =>
    have hx : (g x).length = k := hk x (by simp)
    have ht : ∀ y ∈ t, (g y).length = k := fun y hy => hk y (by simp [hy])
    cases i with
    | zero =>
      simpa [List.flatMap_cons] using
        List.getD_append (g x) (t.flatMap g) d j (by omega)
    | succ i' =>
      have hi' : i' < t.length := by simpa using hi
      have harith : (i' + 1) * k + j = (g x).length + (i' * k + j) := by
        rw [hx]; ring
      rw [List.flatMap_cons, harith,
        List.getD_append_right (g x) (t.flatMap g) d _ (by omega)]
      simpa using ih ht i' hi'

theorem getD_map_of_lt {α β : Type _} (l : List α) (g : α → β) (i : ℕ)
    (hi : i < l.length) (d : β) (dα : α) :
    (l.map g).getD i d = g (l.getD i dα) := by
  rw [List.getD_eq_get _ _ (by simpa using hi), List.getD_eq_get _ _ hi]
  exact List.get_map g

theorem channelFeats_length (f psd : List ℚ) (tfs : List ℚ) (hms : List ℕ)
    (bw : ℚ) : (channelFeats f psd tfs hms bw).length = tfs.length * hms.length :=
  flatMap_length_uniform _ _ _ (fun _ _ => by simp)

theorem channelFeats_getD (f psd : List ℚ) (tfs : List ℚ) (hms : List ℕ) (bw : ℚ)
    (fi hi : ℕ) (hfi : fi < tfs.length) (hhi : hi < hms.length) :
    (channelFeats f psd tfs hms bw).getD (fi * hms.length + hi) 0
      = bandPower f psd ((tfs.getD fi 0) * (hms.getD hi 1 : ℚ)) bw := by
  unfold channelFeats
  rw [flatMap_getD_uniform _ _ hms.length (fun _ _ => by simp) fi hi hfi hhi 0 0]
  exact getD_map_of_lt _ _ hi hhi 0 1

theorem trialFeats_length (welch : Welch) (fs : ℕ) (tfs : List ℚ) (hms : List ℕ)
    (bw : ℚ) (ns : ℕ) (trial : List (List ℚ)) :
    (trialFeats welch fs tfs hms bw ns trial).length
      = trial.length * (tfs.length * hms.length) :=
  flatMap_length_uniform _ _ _ (fun _ _ => channelFeats_length _ _ _ _ _)

theorem trialFeats_getD (welch : Welch) (fs : ℕ) (tfs : List ℚ) (hms : List ℕ)
    (bw : ℚ) (ns : ℕ) (trial : List (List ℚ)) (ch fi hi : ℕ)
    (hch : ch < trial.length) (hfi : fi < tfs.length) (hhi : hi < hms.length) :
    (trialFeats welch fs tfs hms bw ns trial).getD
        (ch * (tfs.length * hms.length) + fi * hms.length + hi) 0
      = bandPower (welch (trial.getD ch []) fs (min 512 ns)).1
          (welch (trial.getD ch []) fs (min 512 ns)).2
          ((tfs.getD fi 0) * (hms.getD hi 1 : ℚ)) bw := by
  have hj : fi * hms.length + hi < tfs.length * hms.length := by
    have h1 : fi * hms.length + hi < (fi + 1) * hms.length := by
      rw [Nat.succ_mul]; omega
    have h2 : (fi + 1) * hms.length ≤ tfs.length * hms.length :=
      Nat.mul_le_mul_right _ (by omega)
    omega
  have harith : ch * (tfs.length * hms.length) + fi * hms.length + hi
      = ch * (tfs.length * hms.length) + (fi * hms.length + hi) := by ring
  unfold trialFeats
  rw [harith, flatMap_getD_uniform _ _ (tfs.length * hms.length)
    (fun _ _ => channelFeats_length _ _ _ _ _) ch _ hch hj 0 []]
  exact channelFeats_getD _ _ _ _ _ _ _ hfi hhi

/-- Under `Rect3` with at least one channel, the sample count read off the
batch shape agrees with any trial's own first channel length. -/
theorem rect3_shape_ns (X : List (List (List ℚ))) (nc ns : ℕ)
    (hX : Rect3 X nc ns) (hne : X ≠ []) (hnc : 0 < nc) :
    ((X.headD []).headD []).length = ns := by
  cases X with
  | nil => exact absurd rfl hne
  | cons x xs =>
    obtain ⟨hxlen, hxch⟩ := hX x (by simp)
    cases x with
    | nil => simp at hxlen; omega
    | cons c cs =>
      simpa using hxch c (by simp)

/-- C1.  For every valid trial batch (rectangular, `nc` channels of `ns`
samples each), every sampling rate and every configured tuple of target
frequencies and harmonic multipliers: each trial's feature vector produced by
`extract_ssvep_features` has length `nc * (n_target_freqs * n_harmonics)`,
a value independent of the sample count `ns`, and the entry at flat index
`ch * (F * H) + fi * H + hi` is the band-power feature of channel `ch` (in
physical order), target frequency `fi` (in configured order) and harmonic
`hi` (in configured order). -/
theorem extract_ssvep_features_shape_order (welch : Welch) (fs : ℕ)
    (tfs : List ℚ) (hms : List ℕ) (bw : ℚ) (X : List (List (List ℚ)))
    (nc ns : ℕ) (hX : Rect3 X nc ns) (t ch fi hi : ℕ) (ht : t < X.length)
    (hch : ch < nc) (hfi : fi < tfs.length) (hhi : hi < hms.length) :
    ((extract_ssvep_features welch fs tfs hms bw X).getD t []).length
        = nc * (tfs.length * hms.length)
    ∧ ((extract_ssvep_features welch fs tfs hms bw X).getD t []).getD
          (ch * (tfs.length * hms.length) + fi * hms.length + hi) 0
        = bandPower (welch ((X.getD t []).getD ch []) fs (min 512 ns)).1
            (welch ((X.getD t []).getD ch []) fs (min 512 ns)).2
            ((tfs.getD fi 0) * (hms.getD hi 1 : ℚ)) bw := by
  have hrow : (extract_ssvep_features welch fs tfs hms bw X).getD t []
      = trialFeats welch fs tfs hms bw (((X.headD []).headD []).length)
          (X.getD t []) := by
    unfold extract_ssvep_features
    exact getD_map_of_lt X _ t ht [] []
  have hmem : X.getD t [] ∈ X := by
    rw [List.getD_eq_get _ _ ht]
    exact X.get_mem _ _
  have htl : (X.getD t []).length = nc := (hX _ hmem).1
  have hns : ((X.headD []).headD []).length = ns :=
    rect3_shape_ns X nc ns hX (by intro h; rw [h] at ht; simp at ht) (by omega)
  constructor
  · rw [hrow, trialFeats_length, htl]
  · rw [hrow, hns]
    exact trialFeats_getD _ _ _ _ _ _ _ _ _ _ (by omega) hfi hhi

/-- Closed instance of `extract_ssvep_features_shape_order`: a batch of one
trial with 2 channels of 4 samples, target frequencies 10 and 20 Hz,
harmonics 1 and 2, evaluated at channel 1, frequency index 0, harmonic
index 1 (frequency of interest 20 Hz). -/
theorem extract_ssvep_features_shape_order_witness :
    ((extract_ssvep_features (fun _ _ _ => ([10, 21/2, 30], [1, 2, 3])) 256
        [10, 20] [1, 2] (1/2) [[[1, 2, 3, 4], [5, 6, 7, 8]]]).getD 0 []).length
        = 2 * (2 * 2)
    ∧ ((extract_ssvep_features (fun _ _ _ => ([10, 21/2, 30], [1, 2, 3])) 256
        [10, 20] [1, 2] (1/2) [[[1, 2, 3, 4], [5, 6, 7, 8]]]).getD 0 []).getD
          (1 * (2 * 2) + 0 * 2 + 1) 0
        = bandPower ((fun (_ : List ℚ) (_ _ : ℕ) => (([10, 21/2, 30] : List ℚ),
              ([1, 2, 3] : List ℚ))) (([[[1, 2, 3, 4], [5, 6, 7, 8]]].getD 0 []).getD 1 [])
              256 (min 512 4)).1
            ((fun (_ : List ℚ) (_ _ : ℕ) => (([10, 21/2, 30] : List ℚ),
              ([1, 2, 3] : List ℚ))) (([[[1, 2, 3, 4], [5, 6, 7, 8]]].getD 0 []).getD 1 [])
              256 (min 512 4)).2
            ((([10, 20] : List ℚ).getD 0 0) * (([1, 2] : List ℕ).getD 1 1 : ℚ)) (1/2) :=
  extract_ssvep_features_shape_order (fun _ _ _ => ([10, 21/2, 30], [1, 2, 3])) 256
    [10, 20] [1, 2] (1/2) [[[1, 2, 3, 4], [5, 6, 7, 8]]] 2 4 (by decide)
    0 1 0 1 (by decide) (by decide) (by decide) (by decide)

/-- C10.  Feature extraction over a batch is per-trial local: the result has
one row per trial, and row `i` equals the single-trial extraction of the
one-trial batch `[X[i]]` with the same parameters — row `i` depends only on
trial `X[i]` and the configuration. -/
theorem extract_ssvep_features_row_local (welch : Welch) (fs : ℕ)
    (tfs : List ℚ) (hms : List ℕ) (bw : ℚ) (X : List (List (List ℚ)))
    (nc ns : ℕ) (hX : Rect3 X nc ns) (i : ℕ) (hi : i < X.length) :
    (extract_ssvep_features welch fs tfs hms bw X).length = X.length
    ∧ (extract_ssvep_features welch fs tfs hms bw X).getD i []
        = (extract_ssvep_features welch fs tfs hms bw [X.getD i []]).headD [] := by
  constructor
  · unfold extract_ssvep_features; simp
  · have hrow : (extract_ssvep_features welch fs tfs hms bw X).getD i []
        = trialFeats welch fs tfs hms bw (((X.headD []).headD []).length)
            (X.getD i []) := by
      unfold extract_ssvep_features
      exact getD_map_of_lt X _ i hi [] []
    have hmem : X.getD i [] ∈ X := by
      rw [List.getD_eq_get _ _ hi]
      exact X.get_mem _ _
    have hne : X ≠ [] := by intro h; rw [h] at hi; simp at hi
    have hsame : ((X.headD []).headD []).length
        = (((X.getD i []).headD []) : List ℚ).length := by
      rcases Nat.eq_zero_or_pos nc with h0 | hpos
      · -- no channels: both heads are the empty trial's default
        have h1 : (X.getD i []) = [] :=
          List.eq_nil_of_length_eq_zero ((hX _ hmem).1.trans h0)
        cases X with
        | nil => exact absurd rfl hne
        | cons x xs =>
          have h2 : x = [] :=
            List.eq_nil_of_length_eq_zero ((hX x (by simp)).1.trans h0)
          rw [h1, h2]
          simp
      · have h1 : ((X.headD []).headD []).length = ns :=
          rect3_shape_ns X nc ns hX hne hpos
        have h2 : (X.getD i []).length = nc := (hX _ hmem).1
        cases hti : X.getD i [] with
        | nil => rw [hti] at h2; simp at h2; omega
        | cons c cs =>
          have hc : c ∈ X.getD i [] := by rw [hti]; simp
          have := (hX _ hmem).2 c hc
          simpa [hti, this] using h1
    rw [hrow]
    unfold extract_ssvep_features
    simpa using congrArg
      (fun n => trialFeats welch fs tfs hms bw n (X.getD i [])) hsame

/-- Closed instance of `extract_ssvep_features_row_local` on a two-trial
batch with 1 channel of 2 samples, at row 1. -/
theorem extract_ssvep_features_row_local_witness :
    (extract_ssvep_features (fun sig _ _ => (sig, sig)) 256 [10] [1] (1/2)
        [[[1, 2]], [[3, 4]]]).length = ([[[1, 2]], [[3, 4]]] : List (List (List ℚ))).length
    ∧ (extract_ssvep_features (fun sig _ _ => (sig, sig)) 256 [10] [1] (1/2)
        [[[1, 2]], [[3, 4]]]).getD 1 []
        = (extract_ssvep_features (fun sig _ _ => (sig, sig)) 256 [10] [1] (1/2)
            [(([[[1, 2]], [[3, 4]]] : List (List (List ℚ))).getD 1 [])]).headD [] :=
  extract_ssvep_features_row_local (fun sig _ _ => (sig, sig)) 256 [10] [1] (1/2)
    [[[1, 2]], [[3, 4]]] 1 2 (by decide) 1 (by decide)

/-- Transcribed from the spec's own wording (spec §4.1 steps 3-4), for
comparison with the source-derived `bandPower`: average the PSD over all
frequency bins whose center lies within `[freq - w, freq + w]` (inclusive
bounds); if no bin falls in that window the value is exactly `0.0`. -/
def bandPowerSpec (f psd : List ℚ) (freq w : ℚ) : ℚ :=
  let sel := (f.zip psd).filter (fun p => freq - w ≤ p.1 ∧ p.1 ≤ freq + w)
  if sel = [] then 0 else (sel.map Prod.snd).sum / sel.length

theorem whereInBand_cons (a : ℚ) (f : List ℚ) (lo hi : ℚ) :
    whereInBand (a :: f) lo hi
      = (if lo ≤ a ∧ a ≤ hi then [0] else [])
        ++ (whereInBand f lo hi).map (· + 1) := by
  unfold whereInBand
  rw [List.length_cons, List.range_succ_eq_map, List.filter_cons,
    List.filter_map]
  by_cases h : lo ≤ a ∧ a ≤ hi
  · simp [h, Function.comp_def, List.getD_cons_succ, Nat.succ_eq_add_one]
  · simp [h, Function.comp_def, List.getD_cons_succ, Nat.succ_eq_add_one]

theorem whereInBand_values (f : List ℚ) : ∀ psd : List ℚ, f.length = psd.length →
    ∀ lo hi : ℚ, (whereInBand f lo hi).map (fun i => psd.getD i 0)
      = ((f.zip psd).filter (fun p => lo ≤ p.1 ∧ p.1 ≤ hi)).map Prod.snd := by
  induction f with
  | nil => intro psd h lo hi; simp [whereInBand]
  | cons a f ih =>
    intro psd h lo hi
    cases psd with
    | nil => simp at h
    | cons b psd' =>
      have h' : f.length = psd'.length := by simpa using h
      rw [whereInBand_cons, List.map_append, List.map_map]
      have hcomp : (fun i => (b :: psd').getD i 0) ∘ (· + 1)
          = (fun i => psd'.getD i 0) := by
        funext i; simp [Function.comp_def, List.getD_cons_succ]
      rw [hcomp, ih psd' h' lo hi]
      by_cases hab : lo ≤ a ∧ a ≤ hi
      · simp [hab, List.zip_cons_cons, List.filter_cons]
      · simp [hab, List.zip_cons_cons, List.filter_cons]

/-- Refinement: the source's index-based band power (`np.where` over bin
indices) computes exactly the spec's zip-based mean over the inclusive
window, whenever the estimator returns as many PSD values as bin centers. -/
theorem bandPower_eq_spec (f psd : List ℚ) (h : f.length = psd.length)
    (freq w : ℚ) : bandPower f psd freq w = bandPowerSpec f psd freq w := by
  have hv := whereInBand_values f psd h (freq - w) (freq + w)
  have hlen : (whereInBand f (freq - w) (freq + w)).length
      = ((f.zip psd).filter
          (fun p => freq - w ≤ p.1 ∧ p.1 ≤ freq + w)).length := by
    have := congrArg List.length hv
    simpa using this
  simp only [bandPower, bandPowerSpec]
  by_cases hsel : (f.zip psd).filter
      (fun p => freq - w ≤ p.1 ∧ p.1 ≤ freq + w) = []
  · rw [if_pos hsel, if_neg (by rw [hlen, hsel]; simp)]
  · rw [if_neg hsel, if_pos (by rw [hlen]; exact List.length_pos.mpr hsel),
      hv, hlen]

/-- The Welch estimate the source computes for trial `t`, channel `ch` of
batch `X` whose trials have `ns` samples. -/
def welchAt (welch : Welch) (fs ns : ℕ) (X : List (List (List ℚ)))
    (t ch : ℕ) : List ℚ × List ℚ :=
  welch ((X.getD t []).getD ch []) fs (min 512 ns)

/-- C3.  Each feature equals the mean of the Welch PSD estimate (segment
length `min 512 ns`) over all frequency bins whose center lies within the
inclusive window `[freq - bw, freq + bw]` around `freq = tfs[fi] * hms[hi]`,
exactly as the spec words it (`bandPowerSpec`); and when no bin falls in the
window the feature is exactly `0`, not an error. -/
theorem extract_ssvep_features_bandpower (welch : Welch) (fs : ℕ)
    (tfs : List ℚ) (hms : List ℕ) (bw : ℚ) (X : List (List (List ℚ)))
    (nc ns : ℕ) (hX : Rect3 X nc ns) (t ch fi hi : ℕ) (ht : t < X.length)
    (hch : ch < nc) (hfi : fi < tfs.length) (hhi : hi < hms.length)
    (hwf : (welchAt welch fs ns X t ch).1.length
        = (welchAt welch fs ns X t ch).2.length) :
    ((extract_ssvep_features welch fs tfs hms bw X).getD t []).getD
          (ch * (tfs.length * hms.length) + fi * hms.length + hi) 0
        = bandPowerSpec (welchAt welch fs ns X t ch).1
            (welchAt welch fs ns X t ch).2
            ((tfs.getD fi 0) * (hms.getD hi 1 : ℚ)) bw
    ∧ (((welchAt welch fs ns X t ch).1.zip (welchAt welch fs ns X t ch).2).filter
          (fun p => (tfs.getD fi 0) * (hms.getD hi 1 : ℚ) - bw ≤ p.1
            ∧ p.1 ≤ (tfs.getD fi 0) * (hms.getD hi 1 : ℚ) + bw) = []
        → ((extract_ssvep_features welch fs tfs hms bw X).getD t []).getD
              (ch * (tfs.length * hms.length) + fi * hms.length + hi) 0 = 0) := by
  have hrow : (extract_ssvep_features welch fs tfs hms bw X).getD t []
      = trialFeats welch fs tfs hms bw (((X.headD []).headD []).length)
          (X.getD t []) := by
    unfold extract_ssvep_features
    exact getD_map_of_lt X _ t ht [] []
  have hmem : X.getD t [] ∈ X := by
    rw [List.getD_eq_get _ _ ht]
    exact X.get_mem _ _
  have htl : (X.getD t []).length = nc := (hX _ hmem).1
  have hns : ((X.headD []).headD []).length = ns :=
    rect3_shape_ns X nc ns hX (by intro h; rw [h] at ht; simp at ht) (by omega)
  have hentry : ((extract_ssvep_features welch fs tfs hms bw X).getD t []).getD
        (ch * (tfs.length * hms.length) + fi * hms.length + hi) 0
      = bandPower (welchAt welch fs ns X t ch).1 (welchAt welch fs ns X t ch).2
          ((tfs.getD fi 0) * (hms.getD hi 1 : ℚ)) bw := by
    rw [hrow, hns]
    exact trialFeats_getD _ _ _ _ _ _ _ _ _ _ (by omega) hfi hhi
  have hspec := bandPower_eq_spec _ _ hwf
    ((tfs.getD fi 0) * (hms.getD hi 1 : ℚ)) bw
  refine ⟨hentry.trans hspec, fun hempty => ?_⟩
  rw [hentry, hspec]
  simp only [bandPowerSpec]
  rw [if_pos hempty]

/-- Closed instance of `extract_ssvep_features_bandpower`: the estimator
returns a single bin at 10 Hz; the feature for frequency 20 Hz falls in an
empty window and is exactly `0`. -/
theorem extract_ssvep_features_bandpower_witness :
    ((extract_ssvep_features (fun _ _ _ => ([10], [5])) 256 [20] [1] (1/2)
        [[[1, 2]]]).getD 0 []).getD (0 * (1 * 1) + 0 * 1 + 0) 0
      = bandPowerSpec (welchAt (fun _ _ _ => ([10], [5])) 256 2 [[[1, 2]]] 0 0).1
          (welchAt (fun _ _ _ => ([10], [5])) 256 2 [[[1, 2]]] 0 0).2
          ((([20] : List ℚ).getD 0 0) * (([1] : List ℕ).getD 0 1 : ℚ)) (1/2)
    ∧ ((extract_ssvep_features (fun _ _ _ => ([10], [5])) 256 [20] [1] (1/2)
        [[[1, 2]]]).getD 0 []).getD (0 * (1 * 1) + 0 * 1 + 0) 0 = 0 :=
  ⟨(extract_ssvep_features_bandpower (fun _ _ _ => ([10], [5])) 256 [20] [1]
      (1/2) [[[1, 2]]] 1 2 (by decide) 0 0 0 0 (by decide) (by decide)
      (by decide) (by decide) (by decide)).1,
   (extract_ssvep_features_bandpower (fun _ _ _ => ([10], [5])) 256 [20] [1]
      (1/2) [[[1, 2]]] 1 2 (by decide) 0 0 0 0 (by decide) (by decide)
      (by decide) (by decide) (by decide)).2
    (by norm_num [welchAt, List.zip_cons_cons, List.filter])⟩

theorem trialEval_functional (welch : Welch) (fs : ℕ) (tfs : List ℚ)
    (hms : List ℕ) (bw : ℚ) (ns : ℕ) (trial : List (List ℚ)) (r₁ r₂ : List ℚ)
    (h₁ : TrialEval welch fs tfs hms bw ns trial r₁)
    (h₂ : TrialEval welch fs tfs hms bw ns trial r₂) : r₁ = r₂ := by
  induction h₁ generalizing r₂ with
  | nil => cases h₂; rfl
  | cons sig rest f psd out hw _ ih =>
    cases h₂ with
    | cons _ _ f' psd' out' hw' hrest =>
      have hfp : (f, psd) = (f', psd') := hw.symm.trans hw'
      rw [Prod.mk.injEq] at hfp
      rw [hfp.1, hfp.2, ih out' hrest]

theorem trialEval_total (welch : Welch) (fs : ℕ) (tfs : List ℚ)
    (hms : List ℕ) (bw : ℚ) (ns : ℕ) (trial : List (List ℚ)) :
    TrialEval welch fs tfs hms bw ns trial
      (trialFeats welch fs tfs hms bw ns trial) := by
  induction trial with
  | nil => exact .nil
  | cons sig rest ih =>
    have hstep : trialFeats welch fs tfs hms bw ns (sig :: rest)
        = channelFeats (welch sig fs (min 512 ns)).1
            (welch sig fs (min 512 ns)).2 tfs hms bw
          ++ trialFeats welch fs tfs hms bw ns rest := by
      simp [trialFeats, List.flatMap_cons]
    rw [hstep]
    exact .cons sig rest _ _ _ rfl ih

theorem batchEval_functional (welch : Welch) (fs : ℕ) (tfs : List ℚ)
    (hms : List ℕ) (bw : ℚ) (ns : ℕ) (X : List (List (List ℚ)))
    (r₁ r₂ : List (List ℚ))
    (h₁ : BatchEval welch fs tfs hms bw ns X r₁)
    (h₂ : BatchEval welch fs tfs hms bw ns X r₂) : r₁ = r₂ := by
  induction h₁ generalizing r₂ with
  | nil => cases h₂; rfl
  | cons trial rest row rows htr _ ih =>
    cases h₂ with
    | cons _ _ row' rows' htr' hrest =>
      rw [trialEval_functional welch fs tfs hms bw ns trial row row' htr htr',
        ih rows' hrest]

theorem batchEval_total (welch : Welch) (fs : ℕ) (tfs : List ℚ)
    (hms : List ℕ) (bw : ℚ) (ns : ℕ) (X : List (List (List ℚ))) :
    BatchEval welch fs tfs hms bw ns X
      (X.map (trialFeats welch fs tfs hms bw ns)) := by
  induction X with
  | nil => exact .nil
  | cons trial rest ih =>
    rw [List.map_cons]
    exact .cons trial rest _ _ (trialEval_total welch fs tfs hms bw ns trial) ih

/-- C4.  `extract_ssvep_features` is deterministic: the loop-by-loop
evaluation relation of the extraction (with the segment length read off the
batch shape, as in the source) admits exactly one result per input, and that
result is the value of `extract_ssvep_features`; two calls on identical
inputs therefore return identical feature matrices — the evaluation consults
no source of randomness. -/
theorem extract_ssvep_features_deterministic (welch : Welch) (fs : ℕ)
    (tfs : List ℚ) (hms : List ℕ) (bw : ℚ) (X : List (List (List ℚ)))
    (r₁ r₂ : List (List ℚ))
    (h₁ : BatchEval welch fs tfs hms bw (((X.headD []).headD []).length) X r₁)
    (h₂ : BatchEval welch fs tfs hms bw (((X.headD []).headD []).length) X r₂) :
    r₁ = r₂ ∧ r₁ = extract_ssvep_features welch fs tfs hms bw X :=
  ⟨batchEval_functional welch fs tfs hms bw _ X r₁ r₂ h₁ h₂,
   batchEval_functional welch fs tfs hms bw _ X r₁ _ h₁
     (batchEval_total welch fs tfs hms bw _ X)⟩

/-- Closed instance of `extract_ssvep_features_deterministic` on a one-trial
batch, with both evaluation premises obtained independently. -/
theorem extract_ssvep_features_deterministic_witness :
    extract_ssvep_features (fun sig _ _ => (sig, sig)) 256 [10] [1, 2] (1/2)
        [[[1, 2], [3, 4]]]
      = extract_ssvep_features (fun sig _ _ => (sig, sig)) 256 [10] [1, 2] (1/2)
        [[[1, 2], [3, 4]]]
    ∧ extract_ssvep_features (fun sig _ _ => (sig, sig)) 256 [10] [1, 2] (1/2)
        [[[1, 2], [3, 4]]]
      = extract_ssvep_features (fun sig _ _ => (sig, sig)) 256 [10] [1, 2] (1/2)
        [[[1, 2], [3, 4]]] :=
  extract_ssvep_features_deterministic (fun sig _ _ => (sig, sig)) 256 [10]
    [1, 2] (1/2) [[[1, 2], [3, 4]]] _ _
    (batchEval_total (fun sig _ _ => (sig, sig)) 256 [10] [1, 2] (1/2) _ _)
    (batchEval_total (fun sig _ _ => (sig, sig)) 256 [10] [1, 2] (1/2) _ _)

theorem removeFirst_eq_erase (s : List ℕ) (ws : ℕ) :
    removeFirst s ws = s.erase ws := by
  induction s with
  | nil => rfl
  | cons x xs ih =>
    rw [List.erase_cons]
    by_cases hx : x = ws
    · simp [removeFirst, hx]
    · simp [removeFirst, hx, ih, Ne.symm hx]

theorem disconnect_eq_erase (s : List ℕ) (ws : ℕ) :
    disconnect s ws = s.erase ws := by
  unfold disconnect
  by_cases h : ws ∈ s
  · rw [if_pos h, removeFirst_eq_erase]
  · rw [if_neg h, List.erase_of_not_mem h]

theorem foldl_disconnect_eq_diff (l s : List ℕ) :
    l.foldl disconnect s = s.diff l := by
  have hfun : disconnect = List.erase := by
    funext s ws; exact disconnect_eq_erase s ws
  rw [hfun, List.diff_eq_foldl]

theorem length_filter_partition (s : List ℕ) (ok : ℕ → Bool) :
    (s.filter ok).length + (s.filter (fun ws => !(ok ws))).length = s.length := by
  induction s with
  | nil => rfl
  | cons x t ih =>
    by_cases h : ok x <;> simp [List.filter_cons, h, ← ih] <;> omega

/-- On a duplicate-free state, removing precisely the failed connections
leaves precisely the successful ones, in order. -/
theorem diff_filter_not (s : List ℕ) (ok : ℕ → Bool) (h : s.Nodup) :
    s.diff (s.filter (fun ws => !(ok ws))) = s.filter ok := by
  rw [List.Nodup.diff_eq_filter h]
  refine List.filter_congr ?_
  intro x hx
  by_cases hok : ok x
  · simp [hok, List.mem_filter]
  · simp [hok, List.mem_filter, hx]

/-- C2.  For a `broadcast_json` call over a duplicate-free live set `s` of
`N` connections with failure predicate `ok`: delivery is attempted exactly
once for every connection of the live set at call time (the attempt sequence
is `s` itself, independent of any failure, and no failure escapes to the
caller since the operation is total), and after the call the new live set is
exactly the `N - M` connections whose delivery succeeded, the pruning being
computed only from the failure list gathered after all attempts. -/
theorem broadcast_json_attempts_prune (s : List ℕ) (ok : ℕ → Bool) (ws : ℕ)
    (h : s.Nodup) (hws : ws ∈ s) :
    (broadcast_json s ok).1 = s
    ∧ (broadcast_json s ok).1.count ws = 1
    ∧ (broadcast_json s ok).2 = s.filter ok
    ∧ (broadcast_json s ok).2.length
        = s.length - (s.filter (fun w => !(ok w))).length := by
  have h2 : (broadcast_json s ok).2 = s.filter ok := by
    show (s.filter (fun w => !(ok w))).foldl disconnect s = s.filter ok
    rw [foldl_disconnect_eq_diff, diff_filter_not s ok h]
  refine ⟨rfl, List.count_eq_one_of_mem h hws, h2, ?_⟩
  rw [h2]
  have := length_filter_partition s ok
  omega

/-- Closed instance of `broadcast_json_attempts_prune`: three connections,
delivery to connection 1 fails. -/
theorem broadcast_json_attempts_prune_witness :
    (broadcast_json [0, 1, 2] (fun w => w ≠ 1)).1 = [0, 1, 2]
    ∧ (broadcast_json [0, 1, 2] (fun w => w ≠ 1)).1.count 1 = 1
    ∧ (broadcast_json [0, 1, 2] (fun w => w ≠ 1)).2
        = ([0, 1, 2].filter (fun w => w ≠ 1))
    ∧ (broadcast_json [0, 1, 2] (fun w => w ≠ 1)).2.length
        = [0, 1, 2].length - ([0, 1, 2].filter (fun w => !(w ≠ 1 : Bool))).length :=
  broadcast_json_attempts_prune [0, 1, 2] (fun w => w ≠ 1) 1
    (by decide) (by decide)

/-- Counterexample to C9 as stated: on the duplicated state `[0, 0]` (itself
reachable by two `connect 0` calls), a second `disconnect 0` removes the
second copy, so applying unregister twice does not equal applying it once. -/
theorem disconnect_not_idempotent_on_duplicates :
    disconnect (disconnect [0, 0] 0) 0 ≠ disconnect [0, 0] 0 := by decide

/-- C9 (amended).  `disconnect` is total: on a connection absent from the
live set it is a no-op raising no error; and on every duplicate-free state
(the only states arising when each live handle occurs once) applying it
twice yields the same state as applying it once. -/
theorem disconnect_noop_and_idempotent (s : List ℕ) (ws : ℕ) :
    (ws ∉ s → disconnect s ws = s)
    ∧ (s.Nodup → disconnect (disconnect s ws) ws = disconnect s ws) := by
  constructor
  · intro h
    unfold disconnect
    rw [if_neg h]
  · intro h
    rw [disconnect_eq_erase, disconnect_eq_erase]
    exact List.erase_of_not_mem (h.not_mem_erase)

/-- Closed instance of `disconnect_noop_and_idempotent` at state `[1, 2]`:
removing the absent connection 3 is a no-op, and removing connection 1
twice equals removing it once. -/
theorem disconnect_noop_and_idempotent_witness :
    disconnect [1, 2] 3 = [1, 2]
    ∧ disconnect (disconnect [1, 2] 1) 1 = disconnect [1, 2] 1 :=
  ⟨(disconnect_noop_and_idempotent [1, 2] 3).1 (by decide),
   (disconnect_noop_and_idempotent [1, 2] 1).2 (by decide)⟩

/-!
### Histories of manager operations (for the duplicate-freedom claim)
-/

/-- One call into the `ConnectionManager`. -/
inductive MgrOp where
  | reg (ws : ℕ)
  | unreg (ws : ℕ)
  | bcast (ok : ℕ → Bool)

/-- Effect of one call on `active_connections`. -/
def applyOp (s : List ℕ) : MgrOp → List ℕ
  | .reg ws => connect s ws
  | .unreg ws => disconnect s ws
  | .bcast ok => (broadcast_json s ok).2

/-- State after a sequence of calls starting from `s`. -/
def run (s : List ℕ) (ops : List MgrOp) : List ℕ := ops.foldl applyOp s

/-- Every `reg` in the sequence registers a handle not currently in the
live set (each websocket object registers at most once). -/
def FreshRegs : List ℕ → List MgrOp → Prop
  | _, [] => True
  | s, op :: ops =>
    (match op with
     | .reg ws => ws ∉ s
     | _ => True)
    ∧ FreshRegs (applyOp s op) ops

instance instDecFreshRegs : (s : List ℕ) → (ops : List MgrOp) →
    Decidable (FreshRegs s ops)
  | _, [] => isTrue trivial
  | s, .reg ws :: ops =>
    haveI := instDecFreshRegs (applyOp s (.reg ws)) ops
    decidable_of_iff ((ws ∉ s) ∧ FreshRegs (applyOp s (.reg ws)) ops)
      Iff.rfl
  | s, .unreg ws :: ops =>
    haveI := instDecFreshRegs (applyOp s (.unreg ws)) ops
    decidable_of_iff (True ∧ FreshRegs (applyOp s (.unreg ws)) ops) Iff.rfl
  | s, .bcast ok :: ops =>
    haveI := instDecFreshRegs (applyOp s (.bcast ok)) ops
    decidable_of_iff (True ∧ FreshRegs (applyOp s (.bcast ok)) ops) Iff.rfl

/-- Counterexample to C8 as stated: registering connection 0 twice — a
sequence of register operations the manager accepts — leaves the live set
`[0, 0]`, which contains a duplicate entry. -/
theorem run_duplicate_counterexample :
    ¬ (run [] [.reg 0, .reg 0]).Nodup := by decide

/-- C8 (amended).  Starting from a duplicate-free live set, every sequence
of register, unregister and broadcast (with its failure-pruning step)
operations in which each register adds a handle not currently live keeps the
connection set free of duplicate entries; `connect` of an already-present
handle is the one operation excluded, since it appends a second entry. -/
theorem run_nodup (s : List ℕ) (ops : List MgrOp) (hs : s.Nodup)
    (hf : FreshRegs s ops) : (run s ops).Nodup := by
  induction ops generalizing s with
  | nil => exact hs
  | cons op ops ih =>
    have hstep : (applyOp s op).Nodup := by
      cases op with
      | reg ws =>
        have hws : ws ∉ s := hf.1
        simp [applyOp, connect, List.nodup_append, hs, hws]
      | unreg ws =>
        rw [applyOp, disconnect_eq_erase]
        exact hs.erase ws
      | bcast ok =>
        show ((s.filter (fun w => !(ok w))).foldl disconnect s).Nodup
        rw [foldl_disconnect_eq_diff, List.Nodup.diff_eq_filter hs]
        exact hs.filter _
    exact ih (applyOp s op) hstep hf.2

/-- Closed instance of `run_nodup`: a fresh registration, a broadcast that
prunes connection 0, an unregister of an absent handle and one more fresh
registration keep the live set duplicate-free. -/
theorem run_nodup_witness :
    (run [5] [.reg 0, .bcast (fun ws => ws ≠ 0), .unreg 9, .reg 7]).Nodup :=
  run_nodup [5] [.reg 0, .bcast (fun ws => ws ≠ 0), .unreg 9, .reg 7]
    (by decide) (by decide)

/-- Counterexample to C5 as stated: the ragged request `[[1], [1, 2]]` is not
a two-dimensional matrix, yet `np.array(..., dtype=float)` raises before the
rank check is reached, so the call surfaces an unhandled server error rather
than the `InvalidInput` client error; no broadcast occurs. -/
theorem predict_ragged_counterexample :
    predict (fun _ => none) (fun _ _ _ => ([], [])) [[1], [1, 2]] "lda"
      = (.serverError, []) := rfl

/-- C5 (amended).  A prediction request whose trial is not a two-dimensional
matrix never broadcasts; when the data still parses into an array (the empty
request, rank 1) the path fails with the `InvalidInput` client error, while
ragged data fails earlier with an unhandled server error. -/
theorem predict_not_2d (models : String → Option Classifier) (welch : Welch)
    (data : List (List ℚ)) (name : String)
    (h : ∀ arr, npArray2 data ≠ .ok (2, arr)) :
    predict models welch data name
      = (match npArray2 data with
         | .error _ => .serverError
         | .ok _ => .clientError "data must be a 2D array: channels x samples",
         []) := by
  unfold predict
  cases hA : npArray2 data with
  | error u => cases u; simp [hA]
  | ok p =>
    obtain ⟨ndim, arr⟩ := p
    have hne : ndim ≠ 2 := fun h2 => h arr (h2 ▸ hA)
    simp [hA, hne]

/-- Closed instance of `predict_not_2d`: the empty request parses to a rank-1
array and yields the `InvalidInput` client error with no broadcast. -/
theorem predict_not_2d_witness :
    predict (fun _ => none) (fun _ _ _ => ([], [])) [] "lda"
      = (match npArray2 [] with
         | .error _ => .serverError
         | .ok _ => .clientError "data must be a 2D array: channels x samples",
         []) :=
  predict_not_2d (fun _ => none) (fun _ _ _ => ([], [])) [] "lda"
    (fun arr hc => by simp [npArray2] at hc)

/-- C6.  For a valid two-dimensional trial and a model name absent from the
registry mapping (`models.get` returns nothing: no partial matching, no
fallback), the call fails with the `UnknownModel` client error and no
broadcast occurs. -/
theorem predict_unknown_model (models : String → Option Classifier)
    (welch : Welch) (data arr : List (List ℚ)) (name : String)
    (h2 : npArray2 data = .ok (2, arr)) (hm : models name = none) :
    predict models welch data name = (.clientError "Unknown model_name", []) := by
  unfold predict
  simp [h2, hm]

/-- Closed instance of `predict_unknown_model` on the valid trial
`[[1, 2], [3, 4]]` and an empty registry. -/
theorem predict_unknown_model_witness :
    predict (fun _ => none) (fun _ _ _ => ([], [])) [[1, 2], [3, 4]] "mlp"
      = (.clientError "Unknown model_name", []) :=
  predict_unknown_model (fun _ => none) (fun _ _ _ => ([], []))
    [[1, 2], [3, 4]] [[1, 2], [3, 4]] "mlp" rfl rfl

theorem npArgmax_lt (l : List ℚ) (h : l ≠ []) : npArgmax l < l.length := by
  induction l with
  | nil => exact absurd rfl h
  | cons x t ih =>
    cases t with
    | nil => simp [npArgmax]
    | cons y rest =>
      simp only [npArgmax]
      by_cases hx : x < (y :: rest).getD (npArgmax (y :: rest)) 0
      · rw [if_pos hx]
        have := ih (by simp)
        simpa using this
      · rw [if_neg hx]
        simp

theorem npArgmax_is_max (l : List ℚ) (j : ℕ) (hj : j < l.length) :
    l.getD j 0 ≤ l.getD (npArgmax l) 0 := by
  induction l generalizing j with
  | nil => simp at hj
  | cons x t ih =>
    cases t with
    | nil =>
      have hj0 : j = 0 := by simpa using hj
      simp [hj0, npArgmax]
    | cons y rest =>
      simp only [npArgmax]
      by_cases hx : x < (y :: rest).getD (npArgmax (y :: rest)) 0
      · rw [if_pos hx]
        cases j with
        | zero => simpa using le_of_lt hx
        | succ j' =>
          have := ih j' (by simpa using hj)
          simpa using this
      · rw [if_neg hx]
        push_neg at hx
        cases j with
        | zero => simp
        | succ j' =>
          have h1 := ih j' (by simpa using hj)
          have h2 : (x :: y :: rest).getD (j' + 1) 0
              = (y :: rest).getD j' 0 := by simp
          rw [h2, List.getD_cons_zero]
          exact le_trans h1 hx

theorem npArgmax_first (l : List ℚ) (j : ℕ) (hj : j < npArgmax l) :
    l.getD j 0 < l.getD (npArgmax l) 0 := by
  induction l generalizing j with
  | nil => simp [npArgmax] at hj
  | cons x t ih =>
    cases t with
    | nil => simp [npArgmax] at hj
    | cons y rest =>
      simp only [npArgmax] at hj ⊢
      by_cases hx : x < (y :: rest).getD (npArgmax (y :: rest)) 0
      · rw [if_pos hx] at hj ⊢
        cases j with
        | zero => simpa using hx
        | succ j' =>
          have := ih j' (by omega)
          simpa using this
      · rw [if_neg hx] at hj
        omega

/-- The feature row `/predict` computes for a valid parsed trial `arr`:
the single-trial batch goes through `extract_ssvep_features` with the
default configuration of `features.py`, and row 0 is taken. -/
def predictFeats (welch : Welch) (arr : List (List ℚ)) : List ℚ :=
  (extract_ssvep_features welch 256 [10, 12, 15, 20] [1, 2, 3] (1/2)
    [arr]).headD []

/-- C7.  For a successful prediction, the response (returned and broadcast
exactly once) carries `class_probabilities` keyed by the stringified class
labels in the classifier's native order, and `predicted_label` is the
stringification of the class at `np.argmax` of the probabilities — the index
of a maximal probability, every index before it holding a strictly smaller
one (ties broken by first occurrence in the native class ordering). -/
theorem predict_label_argmax (models : String → Option Classifier)
    (welch : Welch) (data arr : List (List ℚ)) (name : String)
    (m : Classifier) (j : ℕ)
    (h2 : npArray2 data = .ok (2, arr)) (hm : models name = some m)
    (hlen : (m.proba (predictFeats welch arr)).length = m.classes.length)
    (hpos : 0 < (m.proba (predictFeats welch arr)).length)
    (hj : j < (m.proba (predictFeats welch arr)).length) :
    predict models welch data name
      = (.ok ⟨name,
            toString (m.classes.getD
              (npArgmax (m.proba (predictFeats welch arr))) 0),
            (m.classes.zip (m.proba (predictFeats welch arr))).map
              (fun p => (toString p.1, p.2))⟩,
         [⟨name,
            toString (m.classes.getD
              (npArgmax (m.proba (predictFeats welch arr))) 0),
            (m.classes.zip (m.proba (predictFeats welch arr))).map
              (fun p => (toString p.1, p.2))⟩])
    ∧ npArgmax (m.proba (predictFeats welch arr)) < m.classes.length
    ∧ (m.proba (predictFeats welch arr)).getD j 0
        ≤ (m.proba (predictFeats welch arr)).getD
            (npArgmax (m.proba (predictFeats welch arr))) 0
    ∧ (j < npArgmax (m.proba (predictFeats welch arr))
        → (m.proba (predictFeats welch arr)).getD j 0
            < (m.proba (predictFeats welch arr)).getD
                (npArgmax (m.proba (predictFeats welch arr))) 0) := by
  refine ⟨?_, ?_, npArgmax_is_max _ j hj, fun hlt => npArgmax_first _ j hlt⟩
  · unfold predict
    simp [h2, hm, predictFeats]
  · rw [← hlen]
    exact npArgmax_lt _ (List.ne_nil_of_length_pos hpos)

/-- Closed instance of `predict_label_argmax`: a registry holding one model
with classes `[4, 7]` and constant probabilities `[1, 2]`; the maximum sits
at index 1, and index `j = 0` (strictly before it) holds a strictly smaller
probability; the label "7" is predicted and broadcast once. -/
theorem predict_label_argmax_witness :
    predict (fun _ => some ⟨[4, 7], fun _ => [1, 2]⟩) (fun _ _ _ => ([], []))
        [[1, 2]] "lda"
      = (.ok ⟨"lda",
            toString ((([4, 7] : List ℤ)).getD
              (npArgmax ((fun (_ : List ℚ) => ([1, 2] : List ℚ))
                (predictFeats (fun _ _ _ => ([], [])) [[1, 2]]))) 0),
            ((([4, 7] : List ℤ)).zip ((fun (_ : List ℚ) => ([1, 2] : List ℚ))
                (predictFeats (fun _ _ _ => ([], [])) [[1, 2]]))).map
              (fun p => (toString p.1, p.2))⟩,
         [⟨"lda",
            toString ((([4, 7] : List ℤ)).getD
              (npArgmax ((fun (_ : List ℚ) => ([1, 2] : List ℚ))
                (predictFeats (fun _ _ _ => ([], [])) [[1, 2]]))) 0),
            ((([4, 7] : List ℤ)).zip ((fun (_ : List ℚ) => ([1, 2] : List ℚ))
                (predictFeats (fun _ _ _ => ([], [])) [[1, 2]]))).map
              (fun p => (toString p.1, p.2))⟩])
    ∧ npArgmax ((fun (_ : List ℚ) => ([1, 2] : List ℚ))
          (predictFeats (fun _ _ _ => ([], [])) [[1, 2]]))
        < ([4, 7] : List ℤ).length
    ∧ ((fun (_ : List ℚ) => ([1, 2] : List ℚ))
          (predictFeats (fun _ _ _ => ([], [])) [[1, 2]])).getD 0 0
        ≤ ((fun (_ : List ℚ) => ([1, 2] : List ℚ))
            (predictFeats (fun _ _ _ => ([], [])) [[1, 2]])).getD
            (npArgmax ((fun (_ : List ℚ) => ([1, 2] : List ℚ))
              (predictFeats (fun _ _ _ => ([], [])) [[1, 2]]))) 0
    ∧ (0 < npArgmax ((fun (_ : List ℚ) => ([1, 2] : List ℚ))
          (predictFeats (fun _ _ _ => ([], [])) [[1, 2]]))
        → ((fun (_ : List ℚ) => ([1, 2] : List ℚ))
            (predictFeats (fun _ _ _ => ([], [])) [[1, 2]])).getD 0 0
            < ((fun (_ : List ℚ) => ([1, 2] : List ℚ))
                (predictFeats (fun _ _ _ => ([], [])) [[1, 2]])).getD
                (npArgmax ((fun (_ : List ℚ) => ([1, 2] : List ℚ))
                  (predictFeats (fun _ _ _ => ([], [])) [[1, 2]]))) 0) :=
  predict_label_argmax (fun _ => some ⟨[4, 7], fun _ => [1, 2]⟩)
    (fun _ _ _ => ([], [])) [[1, 2]] [[1, 2]] "lda" ⟨[4, 7], fun _ => [1, 2]⟩
    0 rfl rfl rfl (by norm_num) (by norm_num)
